import Mathlib

/- A verification development for the lazy logical-plan optimizer of the
   polars dataframe library (`src/polars/src/lazy/logical_plan/optimizer.rs`):
   the projection-pushdown pass (`ProjectionPushDown`) and the
   predicate-pushdown pass (`PredicatePushDown`).

   The optimizer itself is embedded directly from the source.  The
   plan/expression/schema data model and the utility routines it consumes
   (`expr_to_root_column`, `rename_expr_root_name`, `Expr::to_field`, the
   plan builder, the `FnvHashMap` accumulator) live in other files of the
   repository and are modelled from the specification; each such
   definition is marked `Modelled from the spec`.

   Rust `panic!` / `.unwrap()` aborts are modelled by `Option`: a pass
   returns `none` exactly when the original pass would abort fatally. -/

namespace Polars

/-- Modelled from the spec (section 3, Schema): the data type of a schema
field.  The optimizer never inspects data types beyond resolving fields,
so a small closed set suffices. -/
inductive DType
  | int
  | float
  | str
  | boolean
  deriving DecidableEq

/-- Modelled from the spec (section 3, Schema): a named, typed field. -/
structure Field where
  name : String
  dtype : DType
  deriving DecidableEq

/-- Modelled from the spec (section 3, Schema): an ordered sequence of
fields; `fields().len()` is `List.length`. -/
abbrev Schema := List Field

/-- Modelled from the spec: name-indexed field access of a schema. -/
def Schema.getField (s : Schema) (name : String) : Option Field :=
  s.find? (fun f => f.name == name)

/-- Modelled from the spec (section 3, Expr): binary operators of composite
expressions.  The optimizer never inspects the operator. -/
inductive Operator
  | gt
  | lt
  | eq
  deriving DecidableEq

/-- Modelled from the spec (section 3, Expr): the expression tree, with at
minimum `Column(name)`, `Alias(inner, new_name)` and binary composites. -/
inductive Expr
  | column (name : String)
  | alias (e : Expr) (name : String)
  | binary (l : Expr) (op : Operator) (r : Expr)
  deriving DecidableEq

/-- The list of column names an expression reads from, in syntactic order. -/
def Expr.rootColumns : Expr → List String
  | .column n => [n]
  | .alias e _ => e.rootColumns
  | .binary l _ r => l.rootColumns ++ r.rootColumns

/-- Modelled from the spec (section 6, expression root-column resolver,
from `crate::lazy::utils`): returns the single root column name of an
expression, or fails (`none`, modelling the `Err` the optimizer unwraps)
when the expression has zero root columns or two distinct ones. -/
def expr_to_root_column (e : Expr) : Option String :=
  match e.rootColumns with
  | [] => none
  | n :: rest => if rest.all (fun m => m == n) then some n else none

/-- Modelled from the spec (section 6, expression renamer, from
`crate::lazy::utils`): a copy of the expression retargeted to a new root
column name. -/
def rename_expr_root_name (e : Expr) (name : String) : Expr :=
  match e with
  | .column _ => .column name
  | .alias inner n => .alias (rename_expr_root_name inner name) n
  | .binary l op r => .binary (rename_expr_root_name l name) op (rename_expr_root_name r name)

/-- Modelled from the spec (section 4.1): expression-to-field resolution
against a candidate schema.  A `Column` resolves by name lookup, an
`Alias` renames the resolved output field, and a binary composite
requires both sides to resolve and takes its output field from the left
side. -/
def Expr.to_field (e : Expr) (s : Schema) : Option Field :=
  match e with
  | .column n => Schema.getField s n
  | .alias inner n => (inner.to_field s).map (fun f => { name := n, dtype := f.dtype })
  | .binary l _ r =>
    match l.to_field s, r.to_field s with
    | some fl, some _ => some fl
    | _, _ => none

-- check if a selection/projection can be done on the downwards schema
-- (`expr.to_field(down_schema).is_ok()` in the source)
def check_down_node (expr : Expr) (down_schema : Schema) : Bool :=
  (expr.to_field down_schema).isSome

/-- Rust `str::ends_with`, on the character list of the string. -/
def strEndsWith (s post : String) : Bool :=
  post.data.isSuffixOf s.data

/-- The first component of Rust `str::split_at(s.len() - n)`: the string
without its last `n` characters (the suffixes involved are ASCII, so byte
and character counts agree). -/
def strDropRight (s : String) (n : Nat) : String :=
  ⟨s.data.take (s.data.length - n)⟩

/-- Modelled from the spec (section 3, Join `how`). -/
inductive JoinType
  | inner
  | left
  | outer
  deriving DecidableEq

/-- Modelled from the spec (section 3, LogicalPlan): the plan tree.  The
`df` payload of `DataFrameScan` is opaque to the optimizer and modelled
by a numeric identifier. -/
inductive LogicalPlan
  | projection (expr : List Expr) (input : LogicalPlan)
  | selection (predicate : Expr) (input : LogicalPlan)
  | aggregate (input : LogicalPlan) (keys : List Expr) (aggs : List Expr)
  | join (input_left : LogicalPlan) (input_right : LogicalPlan)
      (left_on : String) (right_on : String) (how : JoinType)
  | sort (input : LogicalPlan) (column : String) (reverse : Bool)
  | dataFrameScan (df : Nat) (schema : Schema)
  | csvScan (path : String) (schema : Schema) (has_header : Bool) (delimiter : Char)
  deriving DecidableEq

/-- Modelled from the spec (section 3, Join): the join output schema is the
union of both sides' columns, with right-side name collisions suffixed
with the string of six characters underscore r i g h t. -/
def joinSchema (l r : Schema) : Schema :=
  l ++ r.map (fun f =>
    if l.any (fun g => g.name == f.name) then { f with name := f.name ++ "_right" } else f)

/-- Modelled from the spec (section 3, invariant): every node's schema is a
pure function of its subtree, queried through `input.schema()`. -/
def LogicalPlan.schema : LogicalPlan → Schema
  | .projection expr input => expr.filterMap (fun e => e.to_field input.schema)
  | .selection _ input => input.schema
  | .aggregate input keys aggs =>
      keys.filterMap (fun e => e.to_field input.schema)
        ++ aggs.filterMap (fun e => e.to_field input.schema)
  | .join l r _ _ _ => joinSchema l.schema r.schema
  | .sort input _ _ => input.schema
  | .dataFrameScan _ s => s
  | .csvScan _ s _ _ => s

/- ---------------------------------------------------------------------
   ProjectionPushDown
   --------------------------------------------------------------------- -/

-- `ProjectionPushDown::finish_at_leaf`: wrap the leaf in the accumulated
-- projection, or return it unchanged when there was no projection.
def ProjectionPushDown.finish_at_leaf (lp : LogicalPlan) (acc_projections : List Expr) :
    LogicalPlan :=
  match acc_projections with
  | [] => lp
  | _ => .projection acc_projections lp

-- `ProjectionPushDown::split_acc_projections`: split into a projection vec
-- that can be pushed down and a projection vec used at this node.
def ProjectionPushDown.split_acc_projections (acc_projections : List Expr)
    (down_schema : Schema) : List Expr × List Expr :=
  if down_schema.length = acc_projections.length then
    ([], acc_projections)
  else
    acc_projections.partition (fun expr => check_down_node expr down_schema)

-- `ProjectionPushDown::finish_node`
def ProjectionPushDown.finish_node (local_projections : List Expr)
    (builder : LogicalPlan) : LogicalPlan :=
  if local_projections.length > 0 then .projection local_projections builder else builder

-- `ProjectionPushDown::join_push_down` (the two mutable pushes are modelled
-- by returning the extended vectors together with `pushed_at_least_one`)
def ProjectionPushDown.join_push_down (schema_left schema_right : Schema) (proj : Expr)
    (pushdown_left pushdown_right : List Expr) : List Expr × List Expr × Bool :=
  let l := if check_down_node proj schema_left
           then (pushdown_left ++ [proj], true) else (pushdown_left, false)
  let r := if check_down_node proj schema_right
           then (pushdown_right ++ [proj], true) else (pushdown_right, false)
  (l.1, r.1, l.2 || r.2)

-- The body of the Join-arm loop of `ProjectionPushDown::push_down`, after
-- the alias rewrite decided `proj`, the local list and `add_local`.
def ProjectionPushDown.join_acc_core (schema_left schema_right : Schema)
    (pushdown_left pushdown_right local_projection : List Expr)
    (add_local : Bool) (proj : Expr) : Option (List Expr × List Expr × List Expr) :=
  match ProjectionPushDown.join_push_down schema_left schema_right proj
      pushdown_left pushdown_right with
  | (pdl, pdr, pushed) =>
    if pushed then
      if add_local then some (pdl, pdr, local_projection ++ [proj])
      else some (pdl, pdr, local_projection)
    else
      -- Column name of the projection without any alias (`.unwrap()` aborts
      -- are `none`).
      match expr_to_root_column proj with
      | none => none
      | some root_column_name =>
        -- If the collision suffix exists we push a projection down without it.
        if strEndsWith root_column_name "_right" then
          some (pdl,
            pdr ++ [Expr.alias
              (Expr.column (strDropRight root_column_name "_right".length))
              (strDropRight root_column_name "_right".length ++ "_right")],
            local_projection ++ [proj])
        else
          some (pdl, pdr, local_projection)

-- One iteration of the Join-arm loop of `ProjectionPushDown::push_down`:
-- an alias is rewritten to its root column for the downward push and the
-- original alias is recorded locally (`add_local = false`).
def ProjectionPushDown.join_acc_step (schema_left schema_right : Schema)
    (st : List Expr × List Expr × List Expr) (proj : Expr) :
    Option (List Expr × List Expr × List Expr) :=
  match st with
  | (pushdown_left, pushdown_right, local_projection) =>
    match proj with
    | .alias e name =>
      match expr_to_root_column e with
      | none => none
      | some root_name =>
        ProjectionPushDown.join_acc_core schema_left schema_right
          pushdown_left pushdown_right
          (local_projection ++ [Expr.alias (Expr.column root_name) name])
          false (Expr.column root_name)
    | .column n =>
      ProjectionPushDown.join_acc_core schema_left schema_right
        pushdown_left pushdown_right local_projection true (Expr.column n)
    | .binary l op r =>
      ProjectionPushDown.join_acc_core schema_left schema_right
        pushdown_left pushdown_right local_projection true (Expr.binary l op r)

-- The whole Join-arm accumulator pass of `ProjectionPushDown::push_down`:
-- when there are accumulated projections, the join keys are pushed first
-- and the loop runs; otherwise nothing is pushed.
def ProjectionPushDown.join_acc (schema_left schema_right : Schema)
    (left_on right_on : String) (acc_projections : List Expr) :
    Option (List Expr × List Expr × List Expr) :=
  if acc_projections.length > 0 then
    acc_projections.foldlM (ProjectionPushDown.join_acc_step schema_left schema_right)
      ([Expr.column left_on], [Expr.column right_on], [])
  else
    some ([], [], [])

-- `ProjectionPushDown::push_down`
def ProjectionPushDown.push_down : LogicalPlan → List Expr → Option LogicalPlan
  | .projection expr input, acc_projections =>
    match ProjectionPushDown.split_acc_projections (acc_projections ++ expr)
        input.schema with
    | (acc_down, local_projections) =>
      (ProjectionPushDown.push_down input acc_down).map
        (fun lp => ProjectionPushDown.finish_node local_projections lp)
  | .dataFrameScan df schema, acc_projections =>
    some (ProjectionPushDown.finish_at_leaf (.dataFrameScan df schema) acc_projections)
  | .csvScan path schema has_header delimiter, acc_projections =>
    some (ProjectionPushDown.finish_at_leaf
      (.csvScan path schema has_header delimiter) acc_projections)
  | .sort input column reverse, acc_projections =>
    (ProjectionPushDown.push_down input acc_projections).map
      (fun lp => .sort lp column reverse)
  | .selection predicate input, acc_projections =>
    (ProjectionPushDown.push_down input acc_projections).map
      (fun lp => .selection predicate lp)
  | .aggregate input keys aggs, acc_projections =>
    match ProjectionPushDown.split_acc_projections acc_projections input.schema with
    | (acc_down, local_projections) =>
      (ProjectionPushDown.push_down input acc_down).map
        (fun lp => ProjectionPushDown.finish_node local_projections
          (.aggregate lp keys aggs))
  | .join input_left input_right left_on right_on how, acc_projections =>
    match ProjectionPushDown.join_acc input_left.schema input_right.schema
        left_on right_on acc_projections with
    | none => none
    | some (pushdown_left, pushdown_right, local_projection) =>
      match ProjectionPushDown.push_down input_left pushdown_left,
          ProjectionPushDown.push_down input_right pushdown_right with
      | some lp_left, some lp_right =>
        some (ProjectionPushDown.finish_node local_projection
          (.join lp_left lp_right left_on right_on how))
      | _, _ => none

-- `Optimize for ProjectionPushDown`
def ProjectionPushDown.optimize (logical_plan : LogicalPlan) : Option LogicalPlan :=
  ProjectionPushDown.push_down logical_plan []

/- ---------------------------------------------------------------------
   PredicatePushDown
   --------------------------------------------------------------------- -/

/-- Modelled from the spec (section 3, Accumulator): the predicate
accumulator maps root column names to the single pending predicate on
that column; insertion overwrites.  Modelled as an association list. -/
abbrev PredMap := List (String × Expr)

/-- Modelled from the spec: `FnvHashMap::insert` with overwrite-on-insert. -/
def pmInsert (m : PredMap) (k : String) (v : Expr) : PredMap :=
  if m.any (fun kv => kv.1 == k) then
    m.map (fun kv => if kv.1 == k then (k, v) else kv)
  else
    m ++ [(k, v)]

/-- Modelled from the spec: the lookup half of `FnvHashMap::remove`. -/
def pmLookup (m : PredMap) (k : String) : Option Expr :=
  (m.find? (fun kv => kv.1 == k)).map (fun kv => kv.2)

/-- Modelled from the spec: the deletion half of `FnvHashMap::remove`. -/
def pmErase (m : PredMap) (k : String) : PredMap :=
  m.filter (fun kv => !(kv.1 == k))

-- `PredicatePushDown::finish_at_leaf`: stack every remaining predicate as a
-- filter directly above the leaf.
def PredicatePushDown.finish_at_leaf (lp : LogicalPlan) (acc_predicates : PredMap) :
    LogicalPlan :=
  match acc_predicates with
  | [] => lp
  | _ => acc_predicates.foldl (fun builder kv => .selection kv.2 builder) lp

-- `PredicatePushDown::finish_node`
def PredicatePushDown.finish_node (local_predicates : List Expr)
    (builder : LogicalPlan) : LogicalPlan :=
  if local_predicates.length > 0 then
    local_predicates.foldl (fun b expr => .selection expr b) builder
  else builder

-- The alias-rename loop of the Projection arm of
-- `PredicatePushDown::push_down`: an alias matching a pending key retargets
-- that predicate to the root name of the aliased inner expression.
def PredicatePushDown.rename_step (acc_predicates : PredMap) (e : Expr) :
    Option PredMap :=
  match e with
  | .alias inner name =>
    match pmLookup acc_predicates name with
    | some predicate =>
      match expr_to_root_column inner with
      | none => none
      | some new_name =>
        some (pmInsert (pmErase acc_predicates name) new_name
          (rename_expr_root_name predicate new_name))
    | none => some acc_predicates
  | _ => some acc_predicates

-- The body of the Join-arm loop of `PredicatePushDown::push_down`:
-- `check_down_node e s = (e.to_field s).isSome`, so the successful check
-- followed by the `.unwrap()` on the same `to_field` is the some-branch.
def PredicatePushDown.join_step (schema_left schema_right : Schema)
    (st : PredMap × PredMap × List Expr) (predicate : Expr) :
    PredMap × PredMap × List Expr :=
  match st with
  | (pushdown_left, pushdown_right, local_predicates) =>
    match predicate.to_field schema_left with
    | some f => (pmInsert pushdown_left f.name predicate, pushdown_right, local_predicates)
    | none =>
      match predicate.to_field schema_right with
      | some f => (pushdown_left, pmInsert pushdown_right f.name predicate, local_predicates)
      | none => (pushdown_left, pushdown_right, local_predicates ++ [predicate])

-- `PredicatePushDown::push_down`
def PredicatePushDown.push_down : LogicalPlan → PredMap → Option LogicalPlan
  | .selection predicate input, acc_predicates =>
    match expr_to_root_column predicate with
    | some name =>
      PredicatePushDown.push_down input (pmInsert acc_predicates name predicate)
    | none => none  -- `panic!("implement logic for binary expr with 2 root columns")`
  | .projection expr input, acc_predicates =>
    match expr.foldlM PredicatePushDown.rename_step acc_predicates with
    | none => none
    | some acc =>
      (PredicatePushDown.push_down input acc).map (fun lp => .projection expr lp)
  | .dataFrameScan df schema, acc_predicates =>
    some (PredicatePushDown.finish_at_leaf (.dataFrameScan df schema) acc_predicates)
  | .csvScan path schema has_header delimiter, acc_predicates =>
    some (PredicatePushDown.finish_at_leaf
      (.csvScan path schema has_header delimiter) acc_predicates)
  | .sort input column reverse, acc_predicates =>
    (PredicatePushDown.push_down input acc_predicates).map
      (fun lp => .sort lp column reverse)
  | .aggregate input keys aggs, acc_predicates =>
    (PredicatePushDown.push_down input acc_predicates).map
      (fun lp => .aggregate lp keys aggs)
  | .join input_left input_right left_on right_on how, acc_predicates =>
    match acc_predicates.foldl
        (fun st kv => PredicatePushDown.join_step input_left.schema input_right.schema st kv.2)
        ([], [], []) with
    | (pushdown_left, pushdown_right, local_predicates) =>
      match PredicatePushDown.push_down input_left pushdown_left,
          PredicatePushDown.push_down input_right pushdown_right with
      | some lp_left, some lp_right =>
        some (PredicatePushDown.finish_node local_predicates
          (.join lp_left lp_right left_on right_on how))
      | _, _ => none

-- `Optimize for PredicatePushDown`
def PredicatePushDown.optimize (logical_plan : LogicalPlan) : Option LogicalPlan :=
  PredicatePushDown.push_down logical_plan []

/- ---------------------------------------------------------------------
   Observations used by the statements
   --------------------------------------------------------------------- -/

/-- The output (field) name an expression produces, independently of any
schema: the column name, the alias name, or the left side of a binary
composite (matching `Expr.to_field`). -/
def Expr.outputName : Expr → Option String
  | .column n => some n
  | .alias _ n => some n
  | .binary l _ _ => l.outputName

/-- Whether the expression is an `Alias` at the top. -/
def Expr.isAlias : Expr → Bool
  | .alias _ _ => true
  | _ => false

/-- An expression `e` synthesized by the Join arm of projection pushdown is
accounted to an accumulated projection `p` when it is `p` itself, shares
`p`'s root column (the aliasing-chain rewrites), or reads the
suffix-stripped version of `p`'s root column (the collision-suffix
rewrite). -/
def proj_derived (p e : Expr) : Prop :=
  e = p ∨
    ∃ rp re, expr_to_root_column p = some rp ∧ expr_to_root_column e = some re ∧
      (re = rp ∨ (strEndsWith rp "_right" = true ∧ re = strDropRight rp "_right".length))

/-- The accumulated projections the Join arm preserves: aliases,
expressions passing the schema-compatibility check on at least one side,
and single-rooted expressions carrying the collision suffix. -/
def pushable_or_suffixed (schema_left schema_right : Schema) (p : Expr) : Prop :=
  p.isAlias = true ∨
    check_down_node p schema_left = true ∨
    check_down_node p schema_right = true ∨
    (∃ r, expr_to_root_column p = some r ∧ strEndsWith r "_right" = true)

/-- Whether a plan tree contains no Projection node. -/
def LogicalPlan.noProjection : LogicalPlan → Bool
  | .projection _ _ => false
  | .selection _ input => input.noProjection
  | .aggregate input _ _ => input.noProjection
  | .join l r _ _ _ => l.noProjection && r.noProjection
  | .sort input _ _ => input.noProjection
  | .dataFrameScan _ _ => true
  | .csvScan _ _ _ _ => true

/-- The number of Selection nodes of a plan carrying exactly the given
predicate expression. -/
def LogicalPlan.countSelections : LogicalPlan → Expr → Nat
  | .projection _ input, p => input.countSelections p
  | .selection q input, p => (if q == p then 1 else 0) + input.countSelections p
  | .aggregate input _ _, p => input.countSelections p
  | .join l r _ _ _, p => l.countSelections p + r.countSelections p
  | .sort input _ _, p => input.countSelections p
  | .dataFrameScan _ _, _ => 0
  | .csvScan _ _ _ _, _ => 0

/-- Whether an expression mentions a column name anywhere. -/
def Expr.mentionsCol : Expr → String → Bool
  | .column n, m => n == m
  | .alias e n, m => e.mentionsCol m || n == m
  | .binary l _ r, m => l.mentionsCol m || r.mentionsCol m

/-- Whether any expression, key or schema field of a plan mentions a name. -/
def LogicalPlan.mentions : LogicalPlan → String → Bool
  | .projection exprs input, m => exprs.any (fun e => e.mentionsCol m) || input.mentions m
  | .selection p input, m => p.mentionsCol m || input.mentions m
  | .aggregate input keys aggs, m =>
      keys.any (fun e => e.mentionsCol m) || aggs.any (fun e => e.mentionsCol m)
        || input.mentions m
  | .join l r lon ron _, m => l.mentions m || r.mentions m || lon == m || ron == m
  | .sort input c _, m => input.mentions m || c == m
  | .dataFrameScan _ s, m => s.any (fun f => f.name == m)
  | .csvScan _ s _ _, m => s.any (fun f => f.name == m)

/- ---------------------------------------------------------------------
   Theorems
   --------------------------------------------------------------------- -/

/-- Renaming the root replaces every column occurrence by the new name. -/
theorem rootColumns_rename (e : Expr) (n : String) :
    (rename_expr_root_name e n).rootColumns = e.rootColumns.map (fun _ => n) := by
  induction e with
  | column m => simp [rename_expr_root_name, Expr.rootColumns]
  | «alias» inner m ih => simp [rename_expr_root_name, Expr.rootColumns, ih]
  | binary l op r ihl ihr =>
    simp [rename_expr_root_name, Expr.rootColumns, ihl, ihr]

/-- A constant list passes the all-equal check. -/
theorem all_map_const (l : List String) (m : String) :
    (l.map (fun _ => m)).all (fun x => x == m) = true := by
  induction l with
  | nil => rfl
  | cons a t ih => simp [ih]

/-- Renaming the root of an expression that has a single root column yields
an expression whose single root column is the new name. -/
theorem expr_to_root_column_rename (e : Expr) (r n : String)
    (h : expr_to_root_column e = some r) :
    expr_to_root_column (rename_expr_root_name e n) = some n := by
  cases hc : e.rootColumns with
  | nil => simp [expr_to_root_column, hc] at h
  | cons a t =>
    simp [expr_to_root_column, rootColumns_rename, hc, all_map_const]

/-- C5: split policy: if the input schema's field count equals the
accumulator's length then `split_acc_projections` pushes nothing down and
treats the whole accumulator as local; consequently optimizing a plan
whose final projection already selects exactly the leaf's full schema
(same field count) returns the plan unchanged, introducing no extra
projection node at the leaf. -/
theorem C5_noop_split_policy :
    (∀ (acc_projections : List Expr) (down_schema : Schema),
      down_schema.length = acc_projections.length →
      ProjectionPushDown.split_acc_projections acc_projections down_schema
        = ([], acc_projections))
    ∧ (∀ (exprs : List Expr) (df : Nat) (s : Schema),
      exprs.length = s.length → exprs ≠ [] →
      ProjectionPushDown.optimize (.projection exprs (.dataFrameScan df s))
        = some (.projection exprs (.dataFrameScan df s))) := by
  constructor
  · intro acc s h
    simp [ProjectionPushDown.split_acc_projections, h]
  · intro exprs df s h hne
    simp [ProjectionPushDown.optimize, ProjectionPushDown.push_down,
      ProjectionPushDown.split_acc_projections, LogicalPlan.schema, h.symm,
      ProjectionPushDown.finish_at_leaf, ProjectionPushDown.finish_node,
      List.length_pos.mpr hne]

theorem C5_noop_split_policy_witness :
    ((([⟨"a", DType.int⟩, ⟨"b", DType.int⟩] : Schema).length
        = ([Expr.column "a", Expr.column "b"] : List Expr).length)
      ∧ ProjectionPushDown.split_acc_projections [Expr.column "a", Expr.column "b"]
          [⟨"a", DType.int⟩, ⟨"b", DType.int⟩]
        = ([], [Expr.column "a", Expr.column "b"]))
    ∧ ProjectionPushDown.optimize
        (.projection [Expr.column "a", Expr.column "b"]
          (.dataFrameScan 0 [⟨"a", DType.int⟩, ⟨"b", DType.int⟩]))
      = some (.projection [Expr.column "a", Expr.column "b"]
          (.dataFrameScan 0 [⟨"a", DType.int⟩, ⟨"b", DType.int⟩])) :=
  ⟨⟨by decide, C5_noop_split_policy.1 _ _ (by decide)⟩,
    C5_noop_split_policy.2 _ 0 _ (by decide) (by decide)⟩

/-- C6: at a leaf (DataFrameScan or CsvScan), a non-empty accumulator is
materialized as exactly one new Projection containing precisely the
accumulated expressions in their accumulated order, and an empty
accumulator returns the leaf unchanged with no synthetic projection. -/
theorem C6_leaf_materialization (acc : List Expr) (df : Nat) (s : Schema)
    (path : String) (hh : Bool) (d : Char) :
    (acc ≠ [] →
      ProjectionPushDown.push_down (.dataFrameScan df s) acc
          = some (.projection acc (.dataFrameScan df s))
      ∧ ProjectionPushDown.push_down (.csvScan path s hh d) acc
          = some (.projection acc (.csvScan path s hh d)))
    ∧ (ProjectionPushDown.push_down (.dataFrameScan df s) []
          = some (.dataFrameScan df s)
      ∧ ProjectionPushDown.push_down (.csvScan path s hh d) []
          = some (.csvScan path s hh d)) := by
  refine ⟨fun hne => ?_, by constructor <;> rfl⟩
  cases acc with
  | nil => exact absurd rfl hne
  | cons a l =>
    constructor <;> simp [ProjectionPushDown.push_down, ProjectionPushDown.finish_at_leaf]

theorem C6_leaf_materialization_witness :
    ([Expr.column "w"] ≠ ([] : List Expr))
    ∧ ProjectionPushDown.push_down (.dataFrameScan 0 [⟨"w", DType.int⟩, ⟨"h", DType.int⟩])
        [Expr.column "w"]
      = some (.projection [Expr.column "w"]
          (.dataFrameScan 0 [⟨"w", DType.int⟩, ⟨"h", DType.int⟩])) :=
  ⟨by decide,
    ((C6_leaf_materialization [Expr.column "w"] 0 [⟨"w", DType.int⟩, ⟨"h", DType.int⟩]
      "" false ',').1 (by decide)).1⟩

/-- C7: when predicate pushdown meets a Selection whose predicate has no
single root column, the pass aborts fatally (models the `panic!` by
`none`); otherwise the predicate is inserted under its root name
(overwriting any pending entry for that name) and the Selection node
itself disappears: the rewrite continues directly on the input. -/
theorem C7_selection_abort (predicate : Expr) (input : LogicalPlan) (acc : PredMap) :
    (expr_to_root_column predicate = none →
      PredicatePushDown.push_down (.selection predicate input) acc = none)
    ∧ (∀ name, expr_to_root_column predicate = some name →
      PredicatePushDown.push_down (.selection predicate input) acc
        = PredicatePushDown.push_down input (pmInsert acc name predicate)) := by
  constructor
  · intro h
    simp [PredicatePushDown.push_down, h]
  · intro name h
    simp [PredicatePushDown.push_down, h]

theorem C7_selection_abort_witness :
    (expr_to_root_column (.binary (.column "a") Operator.gt (.column "b")) = none
      ∧ PredicatePushDown.push_down
          (.selection (.binary (.column "a") Operator.gt (.column "b"))
            (.dataFrameScan 0 [⟨"a", DType.int⟩, ⟨"b", DType.int⟩])) []
        = none)
    ∧ PredicatePushDown.push_down
        (.selection (.column "a") (.dataFrameScan 0 [⟨"a", DType.int⟩])) []
      = PredicatePushDown.push_down (.dataFrameScan 0 [⟨"a", DType.int⟩])
          (pmInsert [] "a" (.column "a")) :=
  ⟨⟨by decide, (C7_selection_abort _ _ _).1 (by decide)⟩,
    (C7_selection_abort _ _ _).2 "a" (by decide)⟩

/-- C9: at a Join, every pending predicate is tested against the left
input schema first and then the right: one resolving on the left goes
only to the left-side map keyed by its resolved field name, one resolving
only on the right goes to the right-side map keyed likewise, and one
resolving on neither side is appended to the local predicates, which
`finish_node` applies as filters directly above the rebuilt join. -/
theorem C9_predicate_join_routing (sl sr : Schema) (pl pr : PredMap)
    (loc : List Expr) (p : Expr) :
    (∀ f, p.to_field sl = some f →
      PredicatePushDown.join_step sl sr (pl, pr, loc) p = (pmInsert pl f.name p, pr, loc))
    ∧ (p.to_field sl = none → ∀ f, p.to_field sr = some f →
      PredicatePushDown.join_step sl sr (pl, pr, loc) p = (pl, pmInsert pr f.name p, loc))
    ∧ (p.to_field sl = none → p.to_field sr = none →
      PredicatePushDown.join_step sl sr (pl, pr, loc) p = (pl, pr, loc ++ [p]))
    ∧ (∀ (loc₀ : List Expr) (q : Expr) (b : LogicalPlan),
      PredicatePushDown.finish_node (loc₀ ++ [q]) b
        = .selection q (PredicatePushDown.finish_node loc₀ b)) := by
  refine ⟨fun f hf => ?_, fun hl f hf => ?_, fun hl hr => ?_, fun loc₀ q b => ?_⟩
  · simp [PredicatePushDown.join_step, hf]
  · simp [PredicatePushDown.join_step, hl, hf]
  · simp [PredicatePushDown.join_step, hl, hr]
  · cases loc₀ with
    | nil => simp [PredicatePushDown.finish_node]
    | cons e l =>
      simp [PredicatePushDown.finish_node, List.foldl_append]

/-- C4: at a Join where both input schemas contain a column named foo, an
accumulated non-alias projection whose root column is the suffixed name
(resolving against neither input schema) pushes the unsuffixed column
aliased back to the suffixed name onto the right-side pushdown set,
pushes nothing to the left side, and keeps the original suffixed
expression as a local projection. -/
theorem C4_suffix_round_trip (sl sr : Schema) (pdl pdr loc : List Expr) (p : Expr)
    (_hfl : (Schema.getField sl "foo").isSome = true)
    (_hfr : (Schema.getField sr "foo").isSome = true)
    (hroot : expr_to_root_column p = some "foo_right")
    (hl : check_down_node p sl = false) (hr : check_down_node p sr = false)
    (hna : p.isAlias = false) :
    ProjectionPushDown.join_acc_step sl sr (pdl, pdr, loc) p
      = some (pdl, pdr ++ [.alias (.column "foo") "foo_right"], loc ++ [p]) := by
  have he : strEndsWith "foo_right" "_right" = true := by decide
  have hd : strDropRight "foo_right" "_right".length = "foo" := by decide
  have ha : ("foo" ++ "_right" : String) = "foo_right" := by decide
  cases p with
  | «alias» e n => simp [Expr.isAlias] at hna
  | column n =>
    simp [ProjectionPushDown.join_acc_step, ProjectionPushDown.join_acc_core,
      ProjectionPushDown.join_push_down, hl, hr, hroot, he, hd, ha]
  | binary l op r =>
    simp [ProjectionPushDown.join_acc_step, ProjectionPushDown.join_acc_core,
      ProjectionPushDown.join_push_down, hl, hr, hroot, he, hd, ha]

theorem C4_suffix_round_trip_witness :
    ((Schema.getField [⟨"foo", DType.int⟩] "foo").isSome = true
      ∧ expr_to_root_column (.column "foo_right") = some "foo_right"
      ∧ check_down_node (.column "foo_right") [⟨"foo", DType.int⟩] = false
      ∧ (Expr.column "foo_right").isAlias = false)
    ∧ ProjectionPushDown.join_acc_step [⟨"foo", DType.int⟩] [⟨"foo", DType.int⟩]
        ([], [], []) (.column "foo_right")
      = some ([], [.alias (.column "foo") "foo_right"], [.column "foo_right"]) :=
  ⟨⟨by decide, by decide, by decide, by decide⟩,
    C4_suffix_round_trip [⟨"foo", DType.int⟩] [⟨"foo", DType.int⟩] [] [] []
      (.column "foo_right") (by decide) (by decide) (by decide) (by decide)
      (by decide) (by decide)⟩

/-- C8: pushing a predicate on column x below a projection that aliases
column y to x retargets the accumulator entry from key x to key y with
the predicate rewritten to reference y, so the filter materialized at the
leaf references y; the projection itself is re-wrapped unchanged above
the rewritten input. -/
theorem C8_alias_rename_consistency (p : Expr) (df : Nat) (s : Schema)
    (_hy : (Schema.getField s "y").isSome = true)
    (hp : expr_to_root_column p = some "x") :
    PredicatePushDown.push_down
        (.selection p (.projection [.alias (.column "y") "x"] (.dataFrameScan df s))) []
      = some (.projection [.alias (.column "y") "x"]
          (.selection (rename_expr_root_name p "y") (.dataFrameScan df s)))
    ∧ expr_to_root_column (rename_expr_root_name p "y") = some "y" := by
  refine ⟨?_, expr_to_root_column_rename p "x" "y" hp⟩
  have h1 : expr_to_root_column (Expr.column "y") = some "y" := by decide
  simp [PredicatePushDown.push_down, hp, h1, pmInsert, pmLookup, pmErase,
    PredicatePushDown.rename_step, PredicatePushDown.finish_at_leaf]

theorem C8_alias_rename_consistency_witness :
    ((Schema.getField [⟨"y", DType.int⟩] "y").isSome = true
      ∧ expr_to_root_column (.column "x") = some "x")
    ∧ PredicatePushDown.push_down
        (.selection (.column "x")
          (.projection [.alias (.column "y") "x"] (.dataFrameScan 0 [⟨"y", DType.int⟩]))) []
      = some (.projection [.alias (.column "y") "x"]
          (.selection (rename_expr_root_name (.column "x") "y")
            (.dataFrameScan 0 [⟨"y", DType.int⟩])))
    ∧ expr_to_root_column (rename_expr_root_name (.column "x") "y") = some "y" :=
  ⟨⟨by decide, by decide⟩,
    (C8_alias_rename_consistency (.column "x") 0 [⟨"y", DType.int⟩]
      (by decide) (by decide)).1,
    (C8_alias_rename_consistency (.column "x") 0 [⟨"y", DType.int⟩]
      (by decide) (by decide)).2⟩

theorem C9_predicate_join_routing_witness :
    ((Expr.column "a").to_field [⟨"a", DType.int⟩] = some ⟨"a", DType.int⟩
      ∧ PredicatePushDown.join_step [⟨"a", DType.int⟩] [⟨"b", DType.int⟩]
          ([], [], []) (.column "a")
        = (pmInsert [] "a" (.column "a"), [], []))
    ∧ ((Expr.column "z").to_field [⟨"a", DType.int⟩] = none
      ∧ (Expr.column "z").to_field [⟨"b", DType.int⟩] = none
      ∧ PredicatePushDown.join_step [⟨"a", DType.int⟩] [⟨"b", DType.int⟩]
          ([], [], []) (.column "z")
        = ([], [], [.column "z"])) :=
  ⟨⟨by decide,
      (C9_predicate_join_routing [⟨"a", DType.int⟩] [⟨"b", DType.int⟩] [] [] []
        (.column "a")).1 ⟨"a", DType.int⟩ (by decide)⟩,
    ⟨by decide, by decide,
      ((C9_predicate_join_routing [⟨"a", DType.int⟩] [⟨"b", DType.int⟩] [] [] []
        (.column "z")).2.2.1 (by decide) (by decide))⟩⟩

/-- The root column of a bare column expression. -/
theorem root_col (n : String) : expr_to_root_column (.column n) = some n := rfl

/-- An alias has the root columns of its inner expression. -/
theorem root_alias (inner : Expr) (n : String) :
    expr_to_root_column (.alias inner n) = expr_to_root_column inner := rfl

/-- The root column of an alias of a bare column. -/
theorem root_alias_col (d n : String) :
    expr_to_root_column (.alias (.column d) n) = some d := rfl

/-- Explicit form of `join_push_down`. -/
theorem join_push_down_cases (sl sr : Schema) (proj : Expr) (pdl pdr : List Expr) :
    ProjectionPushDown.join_push_down sl sr proj pdl pdr
      = (if check_down_node proj sl then pdl ++ [proj] else pdl,
         if check_down_node proj sr then pdr ++ [proj] else pdr,
         check_down_node proj sl || check_down_node proj sr) := by
  by_cases h1 : check_down_node proj sl = true <;>
    by_cases h2 : check_down_node proj sr = true <;>
      simp [ProjectionPushDown.join_push_down, h1, h2]

/-- Everything the Join-arm loop body can do to the three lists, relative
to the rewritten projection `proj` it receives: existing entries survive,
new entries are `proj` itself or its suffix-stripped aliasing chain, and
`proj` lands in the local list whenever it is generically pushable or
suffixed (in the `add_local` regime). -/
theorem join_acc_core_spec (sl sr : Schema) (pdl pdr loc : List Expr) (al : Bool)
    (proj : Expr) (pdl' pdr' loc' : List Expr)
    (h : ProjectionPushDown.join_acc_core sl sr pdl pdr loc al proj
      = some (pdl', pdr', loc')) :
    ((∀ e ∈ pdl, e ∈ pdl') ∧ (∀ e ∈ pdr, e ∈ pdr') ∧ (∀ e ∈ loc, e ∈ loc'))
    ∧ ((∀ e ∈ pdl', e ∈ pdl ∨ e = proj)
      ∧ (∀ e ∈ pdr', e ∈ pdr ∨ e = proj ∨
          ∃ r, expr_to_root_column proj = some r ∧ strEndsWith r "_right" = true ∧
            e = .alias (.column (strDropRight r "_right".length))
              (strDropRight r "_right".length ++ "_right"))
      ∧ (∀ e ∈ loc', e ∈ loc ∨ e = proj))
    ∧ (al = true →
        (check_down_node proj sl = true ∨ check_down_node proj sr = true ∨
          ∃ r, expr_to_root_column proj = some r ∧ strEndsWith r "_right" = true) →
        proj ∈ loc') := by
  unfold ProjectionPushDown.join_acc_core at h
  rw [join_push_down_cases] at h
  by_cases hcl : check_down_node proj sl = true <;>
    by_cases hcr : check_down_node proj sr = true
  · -- pushed on both sides
    cases al <;> simp [hcl, hcr] at h <;> obtain ⟨rfl, rfl, rfl⟩ := h <;>
      refine ⟨⟨?_, ?_, ?_⟩, ⟨?_, ?_, ?_⟩, ?_⟩ <;> try intro e he
    all_goals simp only [List.mem_append, List.mem_singleton] at *
    all_goals tauto
  · -- pushed on the left only
    cases al <;> simp [hcl, hcr] at h <;> obtain ⟨rfl, rfl, rfl⟩ := h <;>
      refine ⟨⟨?_, ?_, ?_⟩, ⟨?_, ?_, ?_⟩, ?_⟩ <;> try intro e he
    all_goals simp only [List.mem_append, List.mem_singleton] at *
    all_goals tauto
  · -- pushed on the right only
    cases al <;> simp [hcl, hcr] at h <;> obtain ⟨rfl, rfl, rfl⟩ := h <;>
      refine ⟨⟨?_, ?_, ?_⟩, ⟨?_, ?_, ?_⟩, ?_⟩ <;> try intro e he
    all_goals simp only [List.mem_append, List.mem_singleton] at *
    all_goals tauto
  · -- pushed on neither side
    simp only [hcl, hcr, if_false, Bool.or_self, if_neg, Bool.false_eq_true,
      not_false_eq_true] at h
    have hfalse : (false = true) = False := by simp
    cases hroot : expr_to_root_column proj with
    | none => simp [hroot] at h
    | some r =>
      by_cases hsuf : strEndsWith r "_right" = true
      · simp [hroot, hsuf] at h
        obtain ⟨rfl, rfl, rfl⟩ := h
        refine ⟨⟨fun e he => he, ?_, ?_⟩, ⟨fun e he => Or.inl he, ?_, ?_⟩, ?_⟩
        · intro e he; exact List.mem_append_left _ he
        · intro e he; exact List.mem_append_left _ he
        · intro e he
          rcases List.mem_append.1 he with h0 | h1
          · exact Or.inl h0
          · right; right
            exact ⟨r, rfl, hsuf, by simpa using h1⟩
        · intro e he
          rcases List.mem_append.1 he with h0 | h1
          · exact Or.inl h0
          · right; simpa using h1
        · intro _ _
          exact List.mem_append_right _ (by simp)
      · simp [hroot, hsuf] at h
        obtain ⟨rfl, rfl, rfl⟩ := h
        refine ⟨⟨fun e he => he, fun e he => he, fun e he => he⟩,
          ⟨fun e he => Or.inl he, fun e he => Or.inl he, fun e he => Or.inl he⟩,
          ?_⟩
        intro _ hcond
        rcases hcond with hc | hc | ⟨r2, hr2, hs2⟩
        · exact absurd hc hcl
        · exact absurd hc hcr
        · obtain rfl := Option.some.inj hr2
          exact absurd hs2 hsuf

theorem option_foldlM_nil {α β : Type} (f : β → α → Option β) (b : β) :
    ([] : List α).foldlM f b = some b := rfl

theorem option_foldlM_cons {α β : Type} (f : β → α → Option β) (b : β) (a : α)
    (l : List α) :
    (a :: l).foldlM f b = (f b a).bind (fun b2 => l.foldlM f b2) := rfl

/-- The non-alias instantiation of the loop body: the conclusions of
`join_acc_core_spec` phrased through `proj_derived` and `outputName`. -/
theorem join_acc_step_spec_nonalias (sl sr : Schema) (pdl pdr loc : List Expr)
    (p : Expr) (pdl' pdr' loc' : List Expr) (hna : p.isAlias = false)
    (h : ProjectionPushDown.join_acc_core sl sr pdl pdr loc true p
      = some (pdl', pdr', loc')) :
    ((∀ e ∈ pdl, e ∈ pdl') ∧ (∀ e ∈ pdr, e ∈ pdr') ∧ (∀ e ∈ loc, e ∈ loc'))
    ∧ ((∀ e ∈ pdl', e ∈ pdl ∨ proj_derived p e)
      ∧ (∀ e ∈ pdr', e ∈ pdr ∨ proj_derived p e)
      ∧ (∀ e ∈ loc', e ∈ loc ∨ proj_derived p e))
    ∧ (pushable_or_suffixed sl sr p →
      ∃ e ∈ loc', Expr.outputName e = Expr.outputName p) := by
  obtain ⟨hmono, hsound, hcomp⟩ := join_acc_core_spec sl sr pdl pdr loc true p
    pdl' pdr' loc' h
  refine ⟨hmono, ⟨?_, ?_, ?_⟩, ?_⟩
  · intro e he
    rcases hsound.1 e he with h0 | rfl
    · exact Or.inl h0
    · exact Or.inr (Or.inl rfl)
  · intro e he
    rcases hsound.2.1 e he with h0 | rfl | ⟨r, hr, hs, rfl⟩
    · exact Or.inl h0
    · exact Or.inr (Or.inl rfl)
    · exact Or.inr (Or.inr ⟨r, strDropRight r "_right".length, hr,
        root_alias_col _ _, Or.inr ⟨hs, rfl⟩⟩)
  · intro e he
    rcases hsound.2.2 e he with h0 | rfl
    · exact Or.inl h0
    · exact Or.inr (Or.inl rfl)
  · intro hps
    have hcond : check_down_node p sl = true ∨ check_down_node p sr = true ∨
        ∃ r, expr_to_root_column p = some r ∧ strEndsWith r "_right" = true := by
      rcases hps with ha | hb | hb | hb
      · rw [hna] at ha; cases ha
      · exact Or.inl hb
      · exact Or.inr (Or.inl hb)
      · exact Or.inr (Or.inr hb)
    exact ⟨p, hcomp rfl hcond, rfl⟩

/-- One iteration of the Join-arm loop: existing entries survive, every
new entry is derived from the processed projection, and a pushable or
suffixed or aliased projection always leaves a local-projection entry
with its output name. -/
theorem join_acc_step_spec (sl sr : Schema) (pdl pdr loc : List Expr) (p : Expr)
    (pdl' pdr' loc' : List Expr)
    (h : ProjectionPushDown.join_acc_step sl sr (pdl, pdr, loc) p
      = some (pdl', pdr', loc')) :
    ((∀ e ∈ pdl, e ∈ pdl') ∧ (∀ e ∈ pdr, e ∈ pdr') ∧ (∀ e ∈ loc, e ∈ loc'))
    ∧ ((∀ e ∈ pdl', e ∈ pdl ∨ proj_derived p e)
      ∧ (∀ e ∈ pdr', e ∈ pdr ∨ proj_derived p e)
      ∧ (∀ e ∈ loc', e ∈ loc ∨ proj_derived p e))
    ∧ (pushable_or_suffixed sl sr p →
      ∃ e ∈ loc', Expr.outputName e = Expr.outputName p) := by
  cases p with
  | column n => exact join_acc_step_spec_nonalias sl sr pdl pdr loc _ _ _ _ rfl h
  | binary l op r => exact join_acc_step_spec_nonalias sl sr pdl pdr loc _ _ _ _ rfl h
  | «alias» inner name =>
    have h2 : (match expr_to_root_column inner with
        | none => none
        | some root_name =>
          ProjectionPushDown.join_acc_core sl sr pdl pdr
            (loc ++ [Expr.alias (.column root_name) name]) false
            (Expr.column root_name))
        = some (pdl', pdr', loc') := h
    cases hri : expr_to_root_column inner with
    | none => rw [hri] at h2; cases h2
    | some rt =>
      rw [hri] at h2
      obtain ⟨hmono, hsound, _⟩ := join_acc_core_spec sl sr pdl pdr
        (loc ++ [Expr.alias (.column rt) name]) false (.column rt) pdl' pdr' loc' h2
      have hrootp : expr_to_root_column (.alias inner name) = some rt := by
        rw [root_alias]; exact hri
      refine ⟨⟨hmono.1, hmono.2.1,
        fun e he => hmono.2.2 e (List.mem_append_left _ he)⟩, ⟨?_, ?_, ?_⟩, ?_⟩
      · intro e he
        rcases hsound.1 e he with h0 | rfl
        · exact Or.inl h0
        · exact Or.inr (Or.inr ⟨rt, rt, hrootp, root_col rt, Or.inl rfl⟩)
      · intro e he
        rcases hsound.2.1 e he with h0 | rfl | ⟨r2, hr2, hs2, rfl⟩
        · exact Or.inl h0
        · exact Or.inr (Or.inr ⟨rt, rt, hrootp, root_col rt, Or.inl rfl⟩)
        · obtain rfl := Option.some.inj ((root_col rt).symm.trans hr2)
          exact Or.inr (Or.inr ⟨rt, strDropRight rt "_right".length, hrootp,
            root_alias_col _ _, Or.inr ⟨hs2, rfl⟩⟩)
      · intro e he
        rcases hsound.2.2 e he with h0 | rfl
        · rcases List.mem_append.1 h0 with h1 | h2
          · exact Or.inl h1
          · have he2 : e = Expr.alias (.column rt) name := by simpa using h2
            subst he2
            exact Or.inr (Or.inr ⟨rt, rt, hrootp, root_alias_col _ _, Or.inl rfl⟩)
        · exact Or.inr (Or.inr ⟨rt, rt, hrootp, root_col rt, Or.inl rfl⟩)
      · intro _
        exact ⟨Expr.alias (.column rt) name,
          hmono.2.2 _ (List.mem_append_right _ (by simp)), rfl⟩

/-- Entries present before the Join-arm loop survive it. -/
theorem join_fold_mem (sl sr : Schema) (acc : List Expr) :
    ∀ (st₀ stF : List Expr × List Expr × List Expr),
    acc.foldlM (ProjectionPushDown.join_acc_step sl sr) st₀ = some stF →
    (∀ e ∈ st₀.1, e ∈ stF.1) ∧ (∀ e ∈ st₀.2.1, e ∈ stF.2.1)
      ∧ (∀ e ∈ st₀.2.2, e ∈ stF.2.2) := by
  induction acc with
  | nil =>
    intro st₀ stF h
    rw [option_foldlM_nil] at h
    obtain rfl := Option.some.inj h
    exact ⟨fun e he => he, fun e he => he, fun e he => he⟩
  | cons p rest ih =>
    intro st₀ stF h
    rw [option_foldlM_cons] at h
    cases hstep : ProjectionPushDown.join_acc_step sl sr st₀ p with
    | none => rw [hstep] at h; cases h
    | some st₁ =>
      rw [hstep] at h
      replace h : rest.foldlM (ProjectionPushDown.join_acc_step sl sr) st₁ = some stF := h
      obtain ⟨pdl0, pdr0, loc0⟩ := st₀
      obtain ⟨pdl1, pdr1, loc1⟩ := st₁
      obtain ⟨hmono, _, _⟩ := join_acc_step_spec sl sr pdl0 pdr0 loc0 p
        pdl1 pdr1 loc1 hstep
      obtain ⟨m1, m2, m3⟩ := ih _ _ h
      exact ⟨fun e he => m1 e (hmono.1 e he), fun e he => m2 e (hmono.2.1 e he),
        fun e he => m3 e (hmono.2.2 e he)⟩

/-- Every entry of the three lists after the Join-arm loop was either
there before the loop or is derived from some accumulated projection. -/
theorem join_fold_sound (sl sr : Schema) (acc : List Expr) :
    ∀ (st₀ stF : List Expr × List Expr × List Expr),
    acc.foldlM (ProjectionPushDown.join_acc_step sl sr) st₀ = some stF →
    (∀ e ∈ stF.1, e ∈ st₀.1 ∨ ∃ p ∈ acc, proj_derived p e)
    ∧ (∀ e ∈ stF.2.1, e ∈ st₀.2.1 ∨ ∃ p ∈ acc, proj_derived p e)
    ∧ (∀ e ∈ stF.2.2, e ∈ st₀.2.2 ∨ ∃ p ∈ acc, proj_derived p e) := by
  induction acc with
  | nil =>
    intro st₀ stF h
    rw [option_foldlM_nil] at h
    obtain rfl := Option.some.inj h
    exact ⟨fun e he => Or.inl he, fun e he => Or.inl he, fun e he => Or.inl he⟩
  | cons p rest ih =>
    intro st₀ stF h
    rw [option_foldlM_cons] at h
    cases hstep : ProjectionPushDown.join_acc_step sl sr st₀ p with
    | none => rw [hstep] at h; cases h
    | some st₁ =>
      rw [hstep] at h
      replace h : rest.foldlM (ProjectionPushDown.join_acc_step sl sr) st₁ = some stF := h
      obtain ⟨pdl0, pdr0, loc0⟩ := st₀
      obtain ⟨pdl1, pdr1, loc1⟩ := st₁
      obtain ⟨_, hsound, _⟩ := join_acc_step_spec sl sr pdl0 pdr0 loc0 p
        pdl1 pdr1 loc1 hstep
      obtain ⟨s1, s2, s3⟩ := ih _ _ h
      refine ⟨fun e he => ?_, fun e he => ?_, fun e he => ?_⟩
      · rcases s1 e he with h1 | ⟨q, hq, hd⟩
        · rcases hsound.1 e h1 with h2 | hd
          · exact Or.inl h2
          · exact Or.inr ⟨p, List.mem_cons_self p rest, hd⟩
        · exact Or.inr ⟨q, List.mem_cons_of_mem p hq, hd⟩
      · rcases s2 e he with h1 | ⟨q, hq, hd⟩
        · rcases hsound.2.1 e h1 with h2 | hd
          · exact Or.inl h2
          · exact Or.inr ⟨p, List.mem_cons_self p rest, hd⟩
        · exact Or.inr ⟨q, List.mem_cons_of_mem p hq, hd⟩
      · rcases s3 e he with h1 | ⟨q, hq, hd⟩
        · rcases hsound.2.2 e h1 with h2 | hd
          · exact Or.inl h2
          · exact Or.inr ⟨p, List.mem_cons_self p rest, hd⟩
        · exact Or.inr ⟨q, List.mem_cons_of_mem p hq, hd⟩

/-- Every accumulated projection the Join-arm loop preserves leaves a
local-projection entry carrying its output name. -/
theorem join_fold_complete (sl sr : Schema) (acc : List Expr) :
    ∀ (st₀ stF : List Expr × List Expr × List Expr),
    acc.foldlM (ProjectionPushDown.join_acc_step sl sr) st₀ = some stF →
    ∀ p ∈ acc, pushable_or_suffixed sl sr p →
      ∃ e ∈ stF.2.2, Expr.outputName e = Expr.outputName p := by
  induction acc with
  | nil =>
    intro st₀ stF _ p hp
    simp at hp
  | cons q rest ih =>
    intro st₀ stF h p hp hps
    rw [option_foldlM_cons] at h
    cases hstep : ProjectionPushDown.join_acc_step sl sr st₀ q with
    | none => rw [hstep] at h; cases h
    | some st₁ =>
      rw [hstep] at h
      replace h : rest.foldlM (ProjectionPushDown.join_acc_step sl sr) st₁ = some stF := h
      rcases List.mem_cons.1 hp with rfl | hmem
      · obtain ⟨pdl0, pdr0, loc0⟩ := st₀
        obtain ⟨pdl1, pdr1, loc1⟩ := st₁
        obtain ⟨_, _, hcomp⟩ := join_acc_step_spec sl sr pdl0 pdr0 loc0 p
          pdl1 pdr1 loc1 hstep
        obtain ⟨e, he, hout⟩ := hcomp hps
        exact ⟨e, (join_fold_mem sl sr rest _ _ h).2.2 e he, hout⟩
      · exact ih _ _ h p hmem hps

/-- C1 (amended): at a Join, every accumulated projection expression that
is an alias, passes the schema-compatibility check on at least one side,
or carries the collision suffix on its single root column, ends up
represented (by output name) in the local projection applied above the
rebuilt join — a projection resolvable on neither side and without the
suffix is silently dropped; conversely, every expression in the
synthesized left or right pushdown set is the pushed join key or derived
from an accumulated projection (directly requested, or its aliasing
chain, or its suffix-stripped root), and likewise every local projection
entry is derived from an accumulated projection. -/
theorem C1_join_column_preservation (sl sr : Schema) (lon ron : String)
    (acc : List Expr) (stF : List Expr × List Expr × List Expr)
    (h : ProjectionPushDown.join_acc sl sr lon ron acc = some stF) :
    (∀ p ∈ acc, pushable_or_suffixed sl sr p →
      ∃ e ∈ stF.2.2, Expr.outputName e = Expr.outputName p)
    ∧ (∀ e ∈ stF.1, e = .column lon ∨ ∃ p ∈ acc, proj_derived p e)
    ∧ (∀ e ∈ stF.2.1, e = .column ron ∨ ∃ p ∈ acc, proj_derived p e)
    ∧ (∀ e ∈ stF.2.2, ∃ p ∈ acc, proj_derived p e) := by
  unfold ProjectionPushDown.join_acc at h
  by_cases hlen : acc.length > 0
  · rw [if_pos hlen] at h
    obtain ⟨s1, s2, s3⟩ := join_fold_sound sl sr acc _ _ h
    refine ⟨join_fold_complete sl sr acc _ _ h, fun e he => ?_, fun e he => ?_,
      fun e he => ?_⟩
    · rcases s1 e he with h0 | hd
      · left; simpa using h0
      · exact Or.inr hd
    · rcases s2 e he with h0 | hd
      · left; simpa using h0
      · exact Or.inr hd
    · rcases s3 e he with h0 | hd
      · simp at h0
      · exact hd
  · rw [if_neg hlen] at h
    obtain rfl := Option.some.inj h
    have hacc : acc = [] := by
      cases acc with
      | nil => rfl
      | cons a l => exact absurd (by simp) hlen
    subst hacc
    refine ⟨fun p hp => absurd hp (by simp), fun e he => ?_, fun e he => ?_,
      fun e he => ?_⟩ <;> simp at he

theorem C1_join_column_preservation_witness :
    ProjectionPushDown.join_acc [⟨"a", DType.int⟩] [⟨"b", DType.int⟩] "a" "b"
        [Expr.column "a"]
      = some ([Expr.column "a", Expr.column "a"], [Expr.column "b"], [Expr.column "a"])
    ∧ ∃ e ∈ ([Expr.column "a"] : List Expr),
        Expr.outputName e = Expr.outputName (Expr.column "a") := by
  have hacc : ProjectionPushDown.join_acc [⟨"a", DType.int⟩] [⟨"b", DType.int⟩] "a" "b"
      [Expr.column "a"]
      = some ([Expr.column "a", Expr.column "a"], [Expr.column "b"], [Expr.column "a"]) := by
    decide
  exact ⟨hacc,
    (C1_join_column_preservation [⟨"a", DType.int⟩] [⟨"b", DType.int⟩] "a" "b"
      [Expr.column "a"] _ hacc).1 (Expr.column "a") (by simp)
      (Or.inr (Or.inl (by decide)))⟩

/-- C1 counterexample: the requested projection of column zzz over a join
of schemas with columns a and b resolves on neither side and carries no
collision suffix, so the Join arm neither pushes it nor records it
locally: the requested expression vanishes from the rewritten plan. -/
theorem C1_join_column_preservation_counterexample :
    ProjectionPushDown.push_down
        (.join (.dataFrameScan 0 [⟨"a", DType.int⟩]) (.dataFrameScan 1 [⟨"b", DType.int⟩])
          "a" "b" JoinType.inner)
        [Expr.column "zzz"]
      = some (.join (.projection [.column "a"] (.dataFrameScan 0 [⟨"a", DType.int⟩]))
          (.projection [.column "b"] (.dataFrameScan 1 [⟨"b", DType.int⟩]))
          "a" "b" JoinType.inner)
    ∧ (LogicalPlan.join (.projection [.column "a"] (.dataFrameScan 0 [⟨"a", DType.int⟩]))
        (.projection [.column "b"] (.dataFrameScan 1 [⟨"b", DType.int⟩]))
        "a" "b" JoinType.inner).mentions "zzz" = false := by
  constructor <;> decide

/-- C3: at a Join with a non-empty accumulator, the left join key column
is in the left-side pushdown set and the right join key column is in the
right-side pushdown set regardless of the accumulated projections; every
local projection entry above the rebuilt join is derived from an
accumulated projection (so a key that is not requested is excluded again
there), the local projection is non-empty whenever all accumulated
projections are preserved, and `finish_node` applies it above the join. -/
theorem C3_join_key_preservation (sl sr : Schema) (lon ron : String)
    (acc : List Expr) (stF : List Expr × List Expr × List Expr)
    (h : ProjectionPushDown.join_acc sl sr lon ron acc = some stF)
    (hne : acc ≠ []) :
    (Expr.column lon ∈ stF.1 ∧ Expr.column ron ∈ stF.2.1)
    ∧ (∀ e ∈ stF.2.2, ∃ p ∈ acc, proj_derived p e)
    ∧ ((∀ p ∈ acc, pushable_or_suffixed sl sr p) → stF.2.2 ≠ [])
    ∧ (∀ (loc : List Expr) (b : LogicalPlan), loc ≠ [] →
      ProjectionPushDown.finish_node loc b = .projection loc b) := by
  have hlen : acc.length > 0 := List.length_pos.mpr hne
  unfold ProjectionPushDown.join_acc at h
  rw [if_pos hlen] at h
  obtain ⟨m1, m2, m3⟩ := join_fold_mem sl sr acc _ _ h
  refine ⟨⟨m1 _ (by simp), m2 _ (by simp)⟩, fun e he => ?_, fun hall => ?_,
    fun loc b hloc => ?_⟩
  · rcases (join_fold_sound sl sr acc _ _ h).2.2 e he with h0 | hd
    · simp at h0
    · exact hd
  · cases acc with
    | nil => exact absurd rfl hne
    | cons p rest =>
      obtain ⟨e, he, _⟩ := join_fold_complete sl sr _ _ _ h p (by simp)
        (hall p (by simp))
      intro hemp
      rw [hemp] at he
      simp at he
  · unfold ProjectionPushDown.finish_node
    rw [if_pos (List.length_pos.mpr hloc)]

theorem C3_join_key_preservation_witness :
    ProjectionPushDown.join_acc [⟨"days", DType.int⟩, ⟨"temp", DType.int⟩]
        [⟨"days", DType.int⟩, ⟨"rain", DType.int⟩] "days" "days"
        [Expr.column "temp"]
      = some ([Expr.column "days", Expr.column "temp"], [Expr.column "days"],
          [Expr.column "temp"])
    ∧ Expr.column "days" ∈ [Expr.column "days", Expr.column "temp"]
    ∧ Expr.column "days" ∈ [Expr.column "days"]
    ∧ ([Expr.column "temp"] : List Expr) ≠ [] := by
  have hacc : ProjectionPushDown.join_acc [⟨"days", DType.int⟩, ⟨"temp", DType.int⟩]
      [⟨"days", DType.int⟩, ⟨"rain", DType.int⟩] "days" "days" [Expr.column "temp"]
      = some ([Expr.column "days", Expr.column "temp"], [Expr.column "days"],
          [Expr.column "temp"]) := by decide
  have hkeys := (C3_join_key_preservation _ _ "days" "days" [Expr.column "temp"] _
    hacc (by decide)).1
  have hnonempty := (C3_join_key_preservation _ _ "days" "days" [Expr.column "temp"] _
    hacc (by decide)).2.2.1 (fun p hp => by
      rcases List.mem_singleton.1 hp with rfl
      exact Or.inr (Or.inl (by decide)))
  exact ⟨hacc, hkeys.1, hkeys.2, hnonempty⟩

/-- Stacking the accumulated predicates above a plan materializes each
accumulator entry exactly once. -/
theorem countSelections_foldl (acc : PredMap) (lp : LogicalPlan) (e : Expr) :
    (acc.foldl (fun b kv => LogicalPlan.selection kv.2 b) lp).countSelections e
      = (acc.filter (fun kv => kv.2 == e)).length + lp.countSelections e := by
  induction acc generalizing lp with
  | nil => simp
  | cons kv rest ih =>
    rw [List.foldl_cons, ih]
    by_cases hkv : kv.2 == e <;>
      · simp [LogicalPlan.countSelections, List.filter_cons, hkv]
        try omega

/-- C2 (amended): a predicate reaching a leaf in the accumulator is
materialized exactly once as a stacked filter directly above that leaf,
and at a Join every accumulator predicate is routed to exactly one of
the left-side map, the right-side map (keyed by its resolved field name)
or the local filter list; however, because accumulators overwrite on
insertion by column name, a routed predicate can later be replaced by
another predicate with the same key and dropped, so exactly-once
materialization in the whole rewritten plan holds only in the absence of
key collisions. -/
theorem C2_predicate_materialization :
    (∀ (acc : PredMap) (lp : LogicalPlan) (e : Expr),
      (PredicatePushDown.finish_at_leaf lp acc).countSelections e
        = (acc.filter (fun kv => kv.2 == e)).length + lp.countSelections e)
    ∧ (∀ (sl sr : Schema) (pl pr : PredMap) (loc : List Expr) (p : Expr),
      (∃ f, p.to_field sl = some f ∧
        PredicatePushDown.join_step sl sr (pl, pr, loc) p
          = (pmInsert pl f.name p, pr, loc))
      ∨ (p.to_field sl = none ∧ ∃ f, p.to_field sr = some f ∧
        PredicatePushDown.join_step sl sr (pl, pr, loc) p
          = (pl, pmInsert pr f.name p, loc))
      ∨ (p.to_field sl = none ∧ p.to_field sr = none ∧
        PredicatePushDown.join_step sl sr (pl, pr, loc) p
          = (pl, pr, loc ++ [p]))) := by
  constructor
  · intro acc lp e
    cases acc with
    | nil => simp [PredicatePushDown.finish_at_leaf]
    | cons kv rest =>
      exact countSelections_foldl (kv :: rest) lp e
  · intro sl sr pl pr loc p
    cases hfl : p.to_field sl with
    | some f =>
      exact Or.inl ⟨f, rfl, by simp [PredicatePushDown.join_step, hfl]⟩
    | none =>
      cases hfr : p.to_field sr with
      | some f =>
        exact Or.inr (Or.inl ⟨rfl, f, rfl,
          by simp [PredicatePushDown.join_step, hfl, hfr]⟩)
      | none =>
        exact Or.inr (Or.inr ⟨rfl, rfl,
          by simp [PredicatePushDown.join_step, hfl, hfr]⟩)

/-- C2 counterexample: the filter on column b above the join is routed to
the left side, but the deeper Selection on the same column overwrites the
accumulator entry keyed b, so the routed predicate is materialized zero
times in the rewritten plan — a predicate is dropped. -/
theorem C2_predicate_materialization_counterexample :
    PredicatePushDown.optimize
        (.selection (.column "b")
          (.join (.selection (.binary (.column "b") Operator.lt (.column "b"))
              (.dataFrameScan 0 [⟨"a", DType.int⟩, ⟨"b", DType.int⟩]))
            (.dataFrameScan 1 [⟨"c", DType.int⟩]) "a" "c" JoinType.inner))
      = some (.join (.selection (.binary (.column "b") Operator.lt (.column "b"))
            (.dataFrameScan 0 [⟨"a", DType.int⟩, ⟨"b", DType.int⟩]))
          (.dataFrameScan 1 [⟨"c", DType.int⟩]) "a" "c" JoinType.inner)
    ∧ (LogicalPlan.selection (.column "b")
        (.join (.selection (.binary (.column "b") Operator.lt (.column "b"))
            (.dataFrameScan 0 [⟨"a", DType.int⟩, ⟨"b", DType.int⟩]))
          (.dataFrameScan 1 [⟨"c", DType.int⟩]) "a" "c" JoinType.inner)).countSelections
        (.column "b") = 1
    ∧ (LogicalPlan.join (.selection (.binary (.column "b") Operator.lt (.column "b"))
          (.dataFrameScan 0 [⟨"a", DType.int⟩, ⟨"b", DType.int⟩]))
        (.dataFrameScan 1 [⟨"c", DType.int⟩]) "a" "c" JoinType.inner).countSelections
        (.column "b") = 0 := by
  refine ⟨by decide, by decide, by decide⟩

/-- With an empty accumulator, projection pushdown rebuilds any
projection-free plan unchanged. -/
theorem push_down_nil_of_noProjection (lp : LogicalPlan)
    (h : lp.noProjection = true) :
    ProjectionPushDown.push_down lp [] = some lp := by
  induction lp with
  | projection exprs input ih => simp [LogicalPlan.noProjection] at h
  | selection p input ih =>
    simp only [LogicalPlan.noProjection] at h
    simp [ProjectionPushDown.push_down, ih h]
  | aggregate input keys aggs ih =>
    simp only [LogicalPlan.noProjection] at h
    have hsplit : ProjectionPushDown.split_acc_projections [] input.schema = ([], []) := by
      by_cases hs : input.schema.length = ([] : List Expr).length <;>
        simp [ProjectionPushDown.split_acc_projections, hs]
    simp [ProjectionPushDown.push_down, hsplit, ih h, ProjectionPushDown.finish_node]
  | join l r lon ron how ihl ihr =>
    simp only [LogicalPlan.noProjection, Bool.and_eq_true] at h
    simp [ProjectionPushDown.push_down, ProjectionPushDown.join_acc, ihl h.1, ihr h.2,
      ProjectionPushDown.finish_node]
  | sort input c rev ih =>
    simp only [LogicalPlan.noProjection] at h
    simp [ProjectionPushDown.push_down, ih h]
  | dataFrameScan df s =>
    simp [ProjectionPushDown.push_down, ProjectionPushDown.finish_at_leaf]
  | csvScan path s hh d =>
    simp [ProjectionPushDown.push_down, ProjectionPushDown.finish_at_leaf]

/-- C10: projection pushdown starts from an empty accumulator, which stays
empty through Sort, Selection, Aggregate, Join and leaf arms of a
projection-free plan, so the optimizer returns such a plan structurally
unchanged; in particular both passes return a bare leaf unchanged. -/
theorem C10_identity_projection_free :
    (∀ lp : LogicalPlan, lp.noProjection = true →
      ProjectionPushDown.optimize lp = some lp)
    ∧ (∀ (df : Nat) (s : Schema),
      PredicatePushDown.optimize (.dataFrameScan df s) = some (.dataFrameScan df s))
    ∧ (∀ (path : String) (s : Schema) (hh : Bool) (d : Char),
      PredicatePushDown.optimize (.csvScan path s hh d) = some (.csvScan path s hh d)) :=
  ⟨fun lp h => push_down_nil_of_noProjection lp h, fun _ _ => rfl, fun _ _ _ _ => rfl⟩

theorem C10_identity_projection_free_witness :
    (LogicalPlan.sort
        (.join (.dataFrameScan 0 [⟨"a", DType.int⟩]) (.dataFrameScan 1 [⟨"b", DType.int⟩])
          "a" "b" JoinType.inner) "a" false).noProjection = true
    ∧ ProjectionPushDown.optimize
        (.sort (.join (.dataFrameScan 0 [⟨"a", DType.int⟩])
          (.dataFrameScan 1 [⟨"b", DType.int⟩]) "a" "b" JoinType.inner) "a" false)
      = some (.sort (.join (.dataFrameScan 0 [⟨"a", DType.int⟩])
          (.dataFrameScan 1 [⟨"b", DType.int⟩]) "a" "b" JoinType.inner) "a" false) :=
  ⟨by decide, C10_identity_projection_free.1 _ (by decide)⟩

end Polars
